import Mathlib

/-!
# Verification of `clean_and_push.py`

Shallow embedding of the repository's single source file
`src/clean_and_push.py`, a CLI tool that deletes `.gitmodules` and all
`.git` directories under a root and optionally commits and pushes the
result to a remote.

Modelling conventions:

* The filesystem is a finite list of entries, each an absolute path
  (list of components relative to the root) together with a kind
  (directory or file).  `root.rglob(".git")` enumerates every entry whose
  final component is `".git"`; traversal order is the list order of the
  model, and the subsequent `sorted(..., key=len(parts), reverse=True)`
  is modelled by a stable insertion sort on descending component count.
* `shutil.rmtree` (together with its read-only retry handler and the
  Windows `rd /s /q` fallback) is abstracted as an oracle
  `canDelete : path → Bool` deciding whether the combined
  delete-with-retry-and-fallback ultimately succeeds for that directory;
  on success the directory and everything below it disappear.
* Each `subprocess.run` invocation of the external `git` binary is
  abstracted by an environment: a flag saying whether the binary is
  discoverable on the execution path (constant for the whole run — this
  is a property of the machine, and `FileNotFoundError` is raised by
  `subprocess.run` exactly when the binary is absent) plus a map from
  each distinct git command issued by the program to the result
  (returncode, captured stdout, captured stderr) it would produce.
  `CalledProcessError` (raised by `check=True` calls on a nonzero
  returncode) and `FileNotFoundError` are modelled by following the
  source's `try`/`except` structure; an exception the source does not
  catch surfaces as an `Except.error` (the process would crash).
-/

namespace CleanPush

/-- Kind of a filesystem entry. -/
inductive EKind where
  | dir : EKind
  | file : EKind
deriving DecidableEq, Repr

/-- A filesystem entry: a path (component list relative to the root being
cleaned) and its kind. -/
structure Entry where
  path : List String
  kind : EKind
deriving DecidableEq, Repr

/-- A filesystem tree under the root, as the finite list of its entries in
traversal (`rglob`) order. -/
abbrev FS := List Entry

/-- Whether a path's final component is the marker name `".git"`,
i.e. whether `rglob(".git")` yields it. -/
def isGitName (p : List String) : Bool := p.getLast? == some ".git"

/-- One step of the stable descending-depth sort: insert `x` before the
first element with at most as many components (so elements already in the
list that are strictly deeper than `x` stay in front, and `x` lands in
front of equal-depth elements inserted before it — the behaviour of
Python's stable `sorted(..., key=lambda p: len(p.parts), reverse=True)`
built by insertion from the right). -/
def insertDeep (x : List String) : List (List String) → List (List String)
  | [] => [x]
  | y :: ys => if y.length ≤ x.length then x :: y :: ys else y :: insertDeep x ys

/-- Stable sort by descending number of path components, modelling
`sorted(found, key=lambda p: len(p.parts), reverse=True)`
(src/clean_and_push.py line 30). -/
def sortDeep : List (List String) → List (List String)
  | [] => []
  | x :: xs => insertDeep x (sortDeep xs)

/-- Whether an entry is a directory named `".git"` — the entries kept by
the loop body of `find_git_dirs` (lines 27-29). -/
def isGitDirEntry (e : Entry) : Bool := isGitName e.path && e.kind == EKind.dir

/-- `find_git_dirs` (src/clean_and_push.py lines 24-30): collect every
directory named `.git` found by `root.rglob(".git")`, then sort the
result deepest first. -/
def find_git_dirs (fs : FS) : List (List String) :=
  sortDeep ((fs.filter isGitDirEntry).map Entry.path)

/-- Whether an entry is the top-level `.gitmodules` regular file
(`root / ".gitmodules"` with `is_file()` true, lines 35-36). -/
def isGitmodulesFile (e : Entry) : Bool :=
  e.path == [".gitmodules"] && e.kind == EKind.file

/-- `delete_gitmodules` (src/clean_and_push.py lines 33-44): if the
top-level `.gitmodules` regular file exists, unlink it and return `true`;
on an `OSError` from `unlink` (the oracle `unlinkOk = false`) print the
error and return `false`; if absent return `false`.  Returns the flag and
the resulting filesystem. -/
def delete_gitmodules (fs : FS) (unlinkOk : Bool) : Bool × FS :=
  if fs.any isGitmodulesFile then
    if unlinkOk then (true, fs.filter fun e => !(isGitmodulesFile e)) else (false, fs)
  else (false, fs)

/-- Effect of a successful `shutil.rmtree(d)`: the directory `d` and every
entry below it disappear. -/
def rmtree (fs : FS) (d : List String) : FS :=
  fs.filter fun e => !(d.isPrefixOf e.path)

/-- The loop of `delete_git_dirs` (src/clean_and_push.py lines 51-75)
over an explicit list of directories.  For each directory in order:
in dry-run mode only report and count it; otherwise attempt the removal
(`rmtree` with the read-only retry handler, plus the Windows
`rd /s /q` fallback, abstracted as the oracle `canDelete`): on success
remove the subtree and count it, on failure print the error and continue
with the remaining entries.  Returns the count, the final filesystem and
the list of directories processed, in order. -/
def deleteGo (canDelete : List String → Bool) (dryRun : Bool) :
    List (List String) → FS → Nat × FS × List (List String)
  | [], fs => (0, fs, [])
  | d :: ds, fs =>
    if dryRun then
      let r := deleteGo canDelete dryRun ds fs
      (r.1 + 1, r.2.1, d :: r.2.2)
    else if canDelete d then
      let r := deleteGo canDelete dryRun ds (rmtree fs d)
      (r.1 + 1, r.2.1, d :: r.2.2)
    else
      let r := deleteGo canDelete dryRun ds fs
      (r.1, r.2.1, d :: r.2.2)

/-- `delete_git_dirs` (src/clean_and_push.py lines 47-76): find all
`.git` directories (deepest first) and run the deletion loop over them. -/
def delete_git_dirs (fs : FS) (canDelete : List String → Bool) (dryRun : Bool) :
    Nat × FS × List (List String) :=
  deleteGo canDelete dryRun (find_git_dirs fs) fs

/-! ## The publish step: `git_add_commit_push` (lines 79-171) -/

/-- The distinct `git` invocations issued by `git_add_commit_push`. -/
inductive GitCmd where
  | init : GitCmd
  | add : GitCmd
  | commit : GitCmd
  | remoteRemove : GitCmd
  | remoteAdd : GitCmd
  | branchM : GitCmd
  | push : GitCmd
deriving DecidableEq, Repr

/-- Result of a completed subprocess invocation: exit status and captured
standard output / standard error (with `text=True`). -/
structure CmdResult where
  returncode : Int
  stdout : String
  stderr : String
deriving DecidableEq, Repr

/-- A Python exception that can escape a `subprocess.run` call in this
program without being caught locally.  `CalledProcessError` never does:
every `check=True` site wraps it in a `try`/`except`, so only
`FileNotFoundError` (binary absent) can propagate. -/
inductive PyExc where
  | fileNotFound : PyExc
deriving DecidableEq, Repr

/-- The environment of a run: whether the `git` binary is on `PATH`
(constant over the run) and the result each git command would produce. -/
structure GitEnv where
  gitPresent : Bool
  run : GitCmd → CmdResult

/-- One `subprocess.run(["git", ...])` call: raises `FileNotFoundError`
when the binary is absent, otherwise completes with the environment's
result for that command. -/
def runCall (env : GitEnv) (c : GitCmd) : Except PyExc CmdResult :=
  if env.gitPresent then .ok (env.run c) else .error .fileNotFound

/-- `sub` occurs as a contiguous run inside `l` — the Python substring
test `sub in l`. -/
def hasSubstring (sub : List Char) : List Char → Bool
  | [] => sub.isEmpty
  | c :: cs => sub.isPrefixOf (c :: cs) || hasSubstring sub cs

/-- The test on line 117: `"nothing to commit" in (r.stdout or "") +
(r.stderr or "")`. -/
def nothingToCommit (r : CmdResult) : Bool :=
  hasSubstring "nothing to commit".toList (r.stdout ++ r.stderr).toList

/-- The remote-and-push block (lines 127-171), entered with the trace `t`
of commands already run: remove the `origin` remote ignoring any error
(`try`/bare `except Exception: pass`, no `check`); add the `origin`
remote with `check=True`, returning `false` on `CalledProcessError`
(`FileNotFoundError` here is not caught and would crash); rename the
branch to `main` with no `check` and the result ignored (and no
`try`, so a missing binary would crash); push with `check=True`,
returning `false` on `CalledProcessError` and `true` on success. -/
def remotePushPhase (env : GitEnv) (t : List GitCmd) : Except PyExc (Bool × List GitCmd) :=
  let t1 := match runCall env .remoteRemove with
    | .ok _ => t ++ [GitCmd.remoteRemove]
    | .error _ => t
  match runCall env .remoteAdd with
  | .error e => .error e
  | .ok ra =>
    let t2 := t1 ++ [GitCmd.remoteAdd]
    if ra.returncode ≠ 0 then .ok (false, t2)
    else
      match runCall env .branchM with
      | .error e => .error e
      | .ok _ =>
        let t3 := t2 ++ [GitCmd.branchM]
        match runCall env .push with
        | .error e => .error e
        | .ok rp =>
          let t4 := t3 ++ [GitCmd.push]
          if rp.returncode ≠ 0 then .ok (false, t4) else .ok (true, t4)

/-- The `steps` loop (lines 109-125), entered with the trace `t`:
run `git add .` with no `check` — on `FileNotFoundError` return `false`;
a nonzero returncode only prints an error message (the name `"add"` does
not contain `"commit"`, so there is no early return) and the loop
continues.  Then run `git commit -m msg` — on `FileNotFoundError` return
`false`; on a nonzero returncode, if the combined output contains
`"nothing to commit"` just print and continue, otherwise print the error
and return `false`.  Afterwards fall through to the remote-and-push
block. -/
def stepsPhase (env : GitEnv) (t : List GitCmd) : Except PyExc (Bool × List GitCmd) :=
  match runCall env .add with
  | .error _ => .ok (false, t)
  | .ok _ =>
    let t1 := t ++ [GitCmd.add]
    match runCall env .commit with
    | .error _ => .ok (false, t1)
    | .ok rc =>
      let t2 := t1 ++ [GitCmd.commit]
      if rc.returncode ≠ 0 ∧ nothingToCommit rc = false then .ok (false, t2)
      else remotePushPhase env t2

/-- `git_add_commit_push` (src/clean_and_push.py lines 79-171).
`hasGitDir` is the test `(cwd / ".git").is_dir()` on line 92.  In
dry-run mode print the plan and return `true` with no git calls.
Otherwise, if there is no `.git` directory, run `git init` with
`check=True`, returning `false` on `CalledProcessError` or
`FileNotFoundError`; then the staging/commit loop and the
remote-and-push block.  The result pairs the returned boolean with the
trace of git commands whose process actually ran, in order. -/
def git_add_commit_push (env : GitEnv) (dryRun : Bool) (hasGitDir : Bool) :
    Except PyExc (Bool × List GitCmd) :=
  if dryRun then .ok (true, [])
  else if hasGitDir then stepsPhase env []
  else
    match runCall env .init with
    | .error _ => .ok (false, [])
    | .ok ri =>
      if ri.returncode ≠ 0 then .ok (false, [GitCmd.init])
      else stepsPhase env [GitCmd.init]

/-- Replace the result one command would produce, leaving the rest of the
environment unchanged. -/
def updRun (env : GitEnv) (c : GitCmd) (r : CmdResult) : GitEnv :=
  { env with run := fun c2 => if c2 = c then r else env.run c2 }

/-- The commands contributed to the trace by the skipped-or-run init step
for a given value of the line-92 test. -/
def initTrace (hasGitDir : Bool) : List GitCmd :=
  if hasGitDir then [] else [GitCmd.init]

/-! ## The CLI: `main` (lines 174-231) -/

/-- The command-line options that influence control flow. -/
structure Args where
  repo : Option String
  dryRun : Bool

/-- Python truthiness of `args.repo` on line 217: present and nonempty. -/
def repoGiven : Option String → Bool
  | none => false
  | some s => !(s == "")

/-- The test `(cwd / ".git").is_dir()` against the model filesystem. -/
def hasGitDir (fs : FS) : Bool :=
  fs.any fun e => e.path == [".git"] && e.kind == EKind.dir

/-- The filesystem left by the cleanup stage of `main` (lines 213-214):
`delete_gitmodules` (called unconditionally, with no dry-run guard)
followed by `delete_git_dirs`. -/
def cleanupFS (fs : FS) (unlinkOk : Bool) (canDelete : List String → Bool)
    (dryRun : Bool) : FS :=
  (delete_git_dirs (delete_gitmodules fs unlinkOk).2 canDelete dryRun).2.1

/-- `main` (src/clean_and_push.py lines 174-231) after argument parsing:
`rootIsDir` is the `root.is_dir()` test on line 208 — when false, print
and `sys.exit(1)` before touching anything.  Otherwise run
`delete_gitmodules` (unconditionally) and `delete_git_dirs`, report the
count, and, when a repo URL was given (truthy), run
`git_add_commit_push` and exit `0`/`1` on its `true`/`false` result (an
uncaught exception also terminates the process with exit status 1).
With no repo URL the function falls through and the process exits `0`.
Returns the exit status and the final filesystem. -/
def mainRun (rootIsDir : Bool) (fs : FS) (a : Args) (unlinkOk : Bool)
    (canDelete : List String → Bool) (env : GitEnv) : Nat × FS :=
  if rootIsDir then
    let fs2 := cleanupFS fs unlinkOk canDelete a.dryRun
    if repoGiven a.repo then
      match git_add_commit_push env a.dryRun (hasGitDir fs2) with
      | .ok (true, _) => (0, fs2)
      | .ok (false, _) => (1, fs2)
      | .error _ => (1, fs2)
    else (0, fs2)
  else (1, fs)

/-! ## Helper lemmas -/

theorem mem_insertDeep {x a : List String} {l : List (List String)} :
    a ∈ insertDeep x l ↔ a = x ∨ a ∈ l := by
  induction l with
  | nil => simp [insertDeep]
  | cons y ys ih =>
    by_cases h : y.length ≤ x.length
    · simp [insertDeep, h]
    · simp only [insertDeep, if_neg h, List.mem_cons, ih]
      tauto

theorem sorted_insertDeep {x : List String} {l : List (List String)}
    (h : l.Sorted fun a b => b.length ≤ a.length) :
    (insertDeep x l).Sorted fun a b => b.length ≤ a.length := by
  induction l with
  | nil => simp [insertDeep]
  | cons y ys ih =>
    rw [List.sorted_cons] at h
    by_cases hxy : y.length ≤ x.length
    · rw [insertDeep, if_pos hxy, List.sorted_cons, List.sorted_cons]
      refine ⟨fun b hb => ?_, h⟩
      rcases List.mem_cons.mp hb with rfl | hb
      · exact hxy
      · exact le_trans (h.1 b hb) hxy
    · rw [insertDeep, if_neg hxy, List.sorted_cons]
      refine ⟨fun b hb => ?_, ih h.2⟩
      rcases mem_insertDeep.mp hb with rfl | hb
      · exact le_of_not_le hxy
      · exact h.1 b hb

theorem sorted_sortDeep (l : List (List String)) :
    (sortDeep l).Sorted fun a b => b.length ≤ a.length := by
  induction l with
  | nil => simp [sortDeep, List.Sorted]
  | cons x xs ih => exact sorted_insertDeep ih

theorem mem_sortDeep {a : List String} {l : List (List String)} :
    a ∈ sortDeep l ↔ a ∈ l := by
  induction l with
  | nil => simp [sortDeep]
  | cons x xs ih => rw [sortDeep, mem_insertDeep, ih, List.mem_cons]

theorem isPrefixOf_self (l : List String) : l.isPrefixOf l = true := by
  induction l with
  | nil => rfl
  | cons a as ih => simp [List.isPrefixOf, ih]

theorem length_le_of_isPrefixOf :
    ∀ {l₁ l₂ : List String}, l₁.isPrefixOf l₂ = true → l₁.length ≤ l₂.length := by
  intro l₁
  induction l₁ with
  | nil => intro l₂ _; simp
  | cons a as ih =>
    intro l₂ h
    cases l₂ with
    | nil => simp [List.isPrefixOf] at h
    | cons b bs =>
      rw [List.isPrefixOf_cons₂] at h
      have := ih (Bool.and_elim_right h)
      simpa using this

theorem eq_of_isPrefixOf_of_length :
    ∀ {l₁ l₂ : List String}, l₁.isPrefixOf l₂ = true → l₂.length ≤ l₁.length → l₁ = l₂ := by
  intro l₁
  induction l₁ with
  | nil =>
    intro l₂ _ hlen
    cases l₂ with
    | nil => rfl
    | cons b bs => simp at hlen
  | cons a as ih =>
    intro l₂ h hlen
    cases l₂ with
    | nil => simp [List.isPrefixOf] at h
    | cons b bs =>
      rw [List.isPrefixOf_cons₂] at h
      have hab : a = b := by
        have := Bool.and_elim_left h
        simpa using this
      have hrest := ih (Bool.and_elim_right h) (by simpa using hlen)
      rw [hab, hrest]

theorem mem_find_git_dirs {fs : FS} {p : List String} :
    p ∈ find_git_dirs fs ↔ ∃ e, e ∈ fs ∧ e.path = p ∧ isGitDirEntry e = true := by
  rw [find_git_dirs, mem_sortDeep, List.mem_map]
  constructor
  · rintro ⟨e, he, rfl⟩
    exact ⟨e, (List.mem_filter.mp he).1, rfl, (List.mem_filter.mp he).2⟩
  · rintro ⟨e, he, rfl, hd⟩
    exact ⟨e, List.mem_filter.mpr ⟨he, hd⟩, rfl⟩

theorem find_git_dirs_eq_nil {fs : FS}
    (h : ∀ e ∈ fs, isGitDirEntry e = false) : find_git_dirs fs = [] := by
  have hf : fs.filter isGitDirEntry = [] :=
    List.filter_eq_nil_iff.mpr fun e he => by simp [h e he]
  rw [find_git_dirs, hf]
  rfl

theorem deleteGo_subset {cd : List String → Bool} {ds : List (List String)} :
    ∀ {fs : FS} {e : Entry}, e ∈ (deleteGo cd false ds fs).2.1 → e ∈ fs := by
  induction ds with
  | nil => intro fs e h; simpa [deleteGo] using h
  | cons d ds ih =>
    intro fs e h
    by_cases hd : cd d
    · simp only [deleteGo, Bool.false_eq_true, if_false, if_pos hd] at h
      have := ih h
      exact (List.mem_filter.mp this).1
    · simp only [deleteGo, Bool.false_eq_true, if_false, if_neg hd] at h
      exact ih h

theorem deleteGo_no_prefix {cd : List String → Bool} {d : List String}
    (hd : cd d = true) :
    ∀ {ds : List (List String)} {fs : FS} {e : Entry}, d ∈ ds →
      e ∈ (deleteGo cd false ds fs).2.1 → d.isPrefixOf e.path = false := by
  intro ds
  induction ds with
  | nil => intro fs e h; simp at h
  | cons d' ds ih =>
    intro fs e hmem he
    rcases List.mem_cons.mp hmem with rfl | hmem
    · simp only [deleteGo, Bool.false_eq_true, if_false, if_pos hd] at he
      have := deleteGo_subset he
      have hkeep := (List.mem_filter.mp this).2
      simpa using hkeep
    · by_cases hd' : cd d'
      · simp only [deleteGo, Bool.false_eq_true, if_false, if_pos hd'] at he
        exact ih hmem he
      · simp only [deleteGo, Bool.false_eq_true, if_false, if_neg hd'] at he
        exact ih hmem he

theorem deleteGo_keeps {cd : List String → Bool} {e : Entry} :
    ∀ {ds : List (List String)} {fs : FS}, e ∈ fs →
      (∀ d ∈ ds, d.isPrefixOf e.path = false) →
      e ∈ (deleteGo cd false ds fs).2.1 := by
  intro ds
  induction ds with
  | nil => intro fs he _; simpa [deleteGo] using he
  | cons d ds ih =>
    intro fs he hnp
    by_cases hd : cd d
    · simp only [deleteGo, Bool.false_eq_true, if_false, if_pos hd]
      refine ih ?_ fun d' hd' => hnp d' (List.mem_cons_of_mem _ hd')
      rw [rmtree]
      exact List.mem_filter.mpr ⟨he, by simp [hnp d (List.mem_cons_self _ _)]⟩
    · simp only [deleteGo, Bool.false_eq_true, if_false, if_neg hd]
      exact ih he fun d' hd' => hnp d' (List.mem_cons_of_mem _ hd')

theorem deleteGo_count_trace (cd : List String → Bool) (dr : Bool) :
    ∀ (ds : List (List String)) (fs : FS),
      ((deleteGo cd dr ds fs).1 =
        (if dr then ds.length else (ds.filter cd).length)) ∧
      (deleteGo cd dr ds fs).2.2 = ds := by
  intro ds
  induction ds with
  | nil => intro fs; simp [deleteGo]
  | cons d ds ih =>
    intro fs
    cases dr with
    | true => simp [deleteGo, (ih fs).1, (ih fs).2]
    | false =>
      by_cases hd : cd d
      · simp [deleteGo, hd, (ih (rmtree fs d)).1, (ih (rmtree fs d)).2]
      · simp [deleteGo, hd, (ih fs).1, (ih fs).2]

theorem delete_gitmodules_clears {fs : FS} :
    ∀ e ∈ (delete_gitmodules fs true).2, isGitmodulesFile e = false := by
  intro e he
  by_cases h : fs.any isGitmodulesFile
  · simp only [delete_gitmodules, if_pos h, if_pos rfl] at he
    have := (List.mem_filter.mp he).2
    simpa using this
  · simp only [delete_gitmodules, if_neg h] at he
    have hall := List.any_eq_false.mp (Bool.eq_false_iff.mpr h)
    simpa using hall e he

/-! ## Claims about the scan and the deletion loop -/

/-- C2: the marker-directory scan is deepest-first.  Whenever `q` is a
proper filesystem ancestor of `p` and both occur in the sequence returned
by `find_git_dirs`, the occurrence of `p` comes strictly before the
occurrence of `q`, so deletion processes nested markers before enclosing
ones. -/
theorem C2_scan_deepest_first (fs : FS) (p q : List String)
    (hpre : q.isPrefixOf p = true) (hne : q ≠ p)
    (i j : Fin (find_git_dirs fs).length)
    (hi : (find_git_dirs fs).get i = q)
    (hj : (find_git_dirs fs).get j = p) :
    j < i := by
  have hs : (find_git_dirs fs).Sorted fun a b => b.length ≤ a.length :=
    sorted_sortDeep _
  have hlen : q.length < p.length := by
    rcases lt_or_eq_of_le (length_le_of_isPrefixOf hpre) with h | h
    · exact h
    · exact absurd (eq_of_isPrefixOf_of_length hpre (le_of_eq h.symm)) hne
  by_contra hcon
  push_neg at hcon
  rcases eq_or_lt_of_le hcon with heq | hlt
  · exact hne (by rw [← hi, ← hj, heq])
  · have hrel := hs.rel_get_of_lt hlt
    rw [hi, hj] at hrel
    exact absurd hrel (not_le.mpr hlen)

/-- Witness for C2 on a concrete tree: `[".git"]` is a proper ancestor of
`[".git", "m", ".git"]`, and the deeper one is listed first. -/
def fsC2 : FS := [⟨[".git"], EKind.dir⟩, ⟨[".git", "m", ".git"], EKind.dir⟩]

theorem C2_scan_deepest_first_w :
    (⟨0, by decide⟩ : Fin (find_git_dirs fsC2).length) < ⟨1, by decide⟩ :=
  C2_scan_deepest_first fsC2 [".git", "m", ".git"] [".git"] (by decide) (by decide)
    ⟨1, by decide⟩ ⟨0, by decide⟩ (by decide) (by decide)

/-- C5: per-entry deletion failure is non-fatal to the batch.  For any
failure oracle, the non-dry-run deletion loop visits every marker
directory found (the processed trace equals the full scan result), and
the returned count is exactly the number of entries whose removal
succeeded — failed entries are not counted and do not stop the loop. -/
theorem C5_per_entry_failure_nonfatal (fs : FS) (cd : List String → Bool) :
    (delete_git_dirs fs cd false).1 = ((find_git_dirs fs).filter cd).length ∧
    (delete_git_dirs fs cd false).2.2 = find_git_dirs fs := by
  have h := deleteGo_count_trace cd false (find_git_dirs fs) fs
  simpa [delete_git_dirs] using h

/-- C3: cleanup is idempotent.  After one successful non-dry-run cleanup
(every directory removal succeeds and the `.gitmodules` unlink succeeds),
the resulting tree contains no `.git` directory marker, a second
`delete_gitmodules` deletes nothing, and a second `delete_git_dirs` (with
any oracle, dry-run or not) finds zero markers, removes nothing and
returns a count of zero. -/
theorem C3_cleanup_idempotent (fs : FS) (cd : List String → Bool)
    (hcd : ∀ p, cd p = true) :
    find_git_dirs (cleanupFS fs true cd false) = [] ∧
    (∀ u2 : Bool, delete_gitmodules (cleanupFS fs true cd false) u2
        = (false, cleanupFS fs true cd false)) ∧
    (∀ cd2 : List String → Bool, ∀ dr2 : Bool,
        delete_git_dirs (cleanupFS fs true cd false) cd2 dr2
          = (0, cleanupFS fs true cd false, [])) := by
  have hfs2 : cleanupFS fs true cd false
      = (deleteGo cd false (find_git_dirs (delete_gitmodules fs true).2)
          (delete_gitmodules fs true).2).2.1 := rfl
  have hnodir : ∀ e ∈ cleanupFS fs true cd false, isGitDirEntry e = false := by
    intro e he
    rw [hfs2] at he
    cases hval : isGitDirEntry e with
    | false => rfl
    | true =>
      have hin1 : e ∈ (delete_gitmodules fs true).2 := deleteGo_subset he
      have hfind : e.path ∈ find_git_dirs (delete_gitmodules fs true).2 :=
        mem_find_git_dirs.mpr ⟨e, hin1, rfl, hval⟩
      have hbad := deleteGo_no_prefix (hcd e.path) hfind he
      simp [isPrefixOf_self] at hbad
  have hfind2 : find_git_dirs (cleanupFS fs true cd false) = [] :=
    find_git_dirs_eq_nil hnodir
  have hnomod : (cleanupFS fs true cd false).any isGitmodulesFile = false := by
    rw [List.any_eq_false]
    intro e he
    have hin1 : e ∈ (delete_gitmodules fs true).2 := deleteGo_subset (hfs2 ▸ he)
    simp [delete_gitmodules_clears e hin1]
  refine ⟨hfind2, fun u2 => ?_, fun cd2 dr2 => ?_⟩
  · simp [delete_gitmodules, hnomod]
  · rw [delete_git_dirs, hfind2]
    rfl

/-- Witness for C3 on a concrete tree containing a `.gitmodules` file and
a nested `.git` directory with content. -/
def fsC3 : FS :=
  [⟨[".gitmodules"], EKind.file⟩, ⟨["a", ".git"], EKind.dir⟩,
   ⟨["a", ".git", "hooks"], EKind.file⟩]

theorem C3_cleanup_idempotent_w :
    find_git_dirs (cleanupFS fsC3 true (fun _ => true) false) = [] ∧
    delete_gitmodules (cleanupFS fsC3 true (fun _ => true) false) true
      = (false, cleanupFS fsC3 true (fun _ => true) false) ∧
    delete_git_dirs (cleanupFS fsC3 true (fun _ => true) false) (fun _ => false) true
      = (0, cleanupFS fsC3 true (fun _ => true) false, []) :=
  ⟨(C3_cleanup_idempotent fsC3 (fun _ => true) (fun _ => rfl)).1,
   (C3_cleanup_idempotent fsC3 (fun _ => true) (fun _ => rfl)).2.1 true,
   (C3_cleanup_idempotent fsC3 (fun _ => true) (fun _ => rfl)).2.2 (fun _ => false) true⟩

/-- C1 (code bug): in dry-run mode the program still deletes the
top-level `.gitmodules` file.  `main` calls `delete_gitmodules(root)`
unconditionally (line 213), with no dry-run guard, even though the
`--dry-run` help text promises "Only print what would be done, do not
delete or push".  On a root containing a `.gitmodules` file and one
nested `.git` directory, a dry-run leaves the `.git` directory alone but
removes `.gitmodules`, so the final tree differs from the initial one. -/
theorem C1_dry_run_mutates :
    mainRun true [⟨[".gitmodules"], EKind.file⟩, ⟨["a", ".git"], EKind.dir⟩]
        ⟨none, true⟩ true (fun _ => true) ⟨true, fun _ => ⟨0, "", ""⟩⟩
      = (0, [⟨["a", ".git"], EKind.dir⟩]) ∧
    cleanupFS [⟨[".gitmodules"], EKind.file⟩, ⟨["a", ".git"], EKind.dir⟩]
        true (fun _ => true) true
      ≠ [⟨[".gitmodules"], EKind.file⟩, ⟨["a", ".git"], EKind.dir⟩] := by
  constructor
  · decide
  · decide

/-- C9 counterexample: a regular file named `.git` that lies inside a
`.git` directory is removed by cleanup (it disappears together with the
enclosing directory's subtree), so "every regular file named `.git` is
left in place" fails as stated. -/
def fsC9 : FS :=
  [⟨[".git"], EKind.dir⟩, ⟨[".git", "modules", ".git"], EKind.file⟩]

theorem C9_git_file_removed_counterexample :
    (⟨[".git", "modules", ".git"], EKind.file⟩ : Entry) ∈ fsC9 ∧
    isGitName [".git", "modules", ".git"] = true ∧
    (⟨[".git", "modules", ".git"], EKind.file⟩ : Entry) ∉
      (delete_git_dirs fsC9 (fun _ => true) false).2.1 := by
  decide

/-- C9 (amended): every path returned by `find_git_dirs` is a directory,
and a regular file named `.git` that does not lie under any `.git`
directory found by the scan is left in place by the deletion loop. -/
theorem C9_only_dirs_removed (fs : FS) (cd : List String → Bool) (e : Entry)
    (he : e ∈ fs) (hf : e.kind = EKind.file) (hname : isGitName e.path = true)
    (hnp : ∀ d ∈ find_git_dirs fs, d.isPrefixOf e.path = false) :
    (∀ p ∈ find_git_dirs fs, ∃ e2, e2 ∈ fs ∧ e2.path = p ∧ e2.kind = EKind.dir) ∧
    e ∈ (delete_git_dirs fs cd false).2.1 := by
  constructor
  · intro p hp
    rcases mem_find_git_dirs.mp hp with ⟨e2, he2, rfl, hd⟩
    refine ⟨e2, he2, rfl, ?_⟩
    simp only [isGitDirEntry, Bool.and_eq_true, beq_iff_eq] at hd
    exact hd.2
  · rw [delete_git_dirs]
    exact deleteGo_keeps he hnp

/-- Witness for the amended C9: a `.git` regular file beside (not under)
a `.git` directory survives a fully successful cleanup. -/
def fsC9w : FS := [⟨["s", ".git"], EKind.file⟩, ⟨["t", ".git"], EKind.dir⟩]

theorem C9_only_dirs_removed_w :
    (⟨["s", ".git"], EKind.file⟩ : Entry) ∈
      (delete_git_dirs fsC9w (fun _ => true) false).2.1 :=
  (C9_only_dirs_removed fsC9w (fun _ => true) ⟨["s", ".git"], EKind.file⟩
    (by decide) rfl (by decide) (by decide)).2

/-! ## Claims about the publish step and the CLI -/

theorem updRun_add_irrelevant (env : GitEnv) (r : CmdResult) (d h : Bool) :
    git_add_commit_push (updRun env .add r) d h = git_add_commit_push env d h := by
  cases d
  · cases hg : env.gitPresent <;> cases h <;>
      simp [git_add_commit_push, stepsPhase, remotePushPhase, runCall, updRun, hg]
  · rfl

theorem updRun_remoteRemove_irrelevant (env : GitEnv) (r : CmdResult) (d h : Bool) :
    git_add_commit_push (updRun env .remoteRemove r) d h = git_add_commit_push env d h := by
  cases d
  · cases hg : env.gitPresent <;> cases h <;>
      simp [git_add_commit_push, stepsPhase, remotePushPhase, runCall, updRun, hg]
  · rfl

theorem absent_returns_false (env : GitEnv) (hg : env.gitPresent = false) (h : Bool) :
    git_add_commit_push env false h = .ok (false, []) := by
  cases h <;> simp [git_add_commit_push, stepsPhase, runCall, hg]

theorem remotePushPhase_steps_no_init {env : GitEnv} {b : Bool} {t' : List GitCmd}
    (h : remotePushPhase env [GitCmd.add, GitCmd.commit] = .ok (b, t')) :
    GitCmd.init ∉ t' := by
  cases hg : env.gitPresent
  · simp [remotePushPhase, runCall, hg] at h
  · simp only [remotePushPhase, runCall, hg, if_true, if_pos rfl] at h
    split at h
    · simp only [Except.ok.injEq, Prod.mk.injEq] at h
      rw [← h.2]
      decide
    · split at h
      · simp only [Except.ok.injEq, Prod.mk.injEq] at h
        rw [← h.2]
        decide
      · simp only [Except.ok.injEq, Prod.mk.injEq] at h
        rw [← h.2]
        decide

/-- C10: a pre-existing top-level repository is reused, not
reinitialized.  When the root still has a `.git` directory,
`git_add_commit_push` is exactly the staging/commit/remote block (the
init block is skipped), and `git init` never occurs in the trace of git
commands run. -/
theorem C10_existing_repo_reused (env : GitEnv) :
    git_add_commit_push env false true = stepsPhase env [] ∧
    ∀ (b : Bool) (t : List GitCmd),
      git_add_commit_push env false true = .ok (b, t) → GitCmd.init ∉ t := by
  refine ⟨rfl, fun b t h => ?_⟩
  have hsteps : stepsPhase env [] = .ok (b, t) := h
  cases hg : env.gitPresent
  · simp only [stepsPhase, runCall, hg, Bool.false_eq_true, if_false] at hsteps
    simp only [Except.ok.injEq, Prod.mk.injEq] at hsteps
    rw [← hsteps.2]
    decide
  · simp only [stepsPhase, runCall, hg, if_true, if_pos rfl] at hsteps
    split at hsteps
    · simp only [Except.ok.injEq, Prod.mk.injEq] at hsteps
      rw [← hsteps.2]
      decide
    · exact remotePushPhase_steps_no_init hsteps

def envOk : GitEnv := ⟨true, fun _ => ⟨0, "", ""⟩⟩

theorem C10_existing_repo_reused_w :
    GitCmd.init ∉ [GitCmd.add, GitCmd.commit, GitCmd.remoteRemove,
      GitCmd.remoteAdd, GitCmd.branchM, GitCmd.push] :=
  (C10_existing_repo_reused envOk).2 true
    [GitCmd.add, GitCmd.commit, GitCmd.remoteRemove,
      GitCmd.remoteAdd, GitCmd.branchM, GitCmd.push] rfl

/-- C4: a nonzero commit whose combined output contains
"nothing to commit" is treated as success — the run is exactly the
remote-configuration/rename/push block from that point on, and when
those steps succeed the whole operation returns `true` having run
`remote remove`, `remote add`, `branch -M` and `push`; a nonzero commit
without that text aborts with `false` right after the commit, before any
remote configuration. -/
theorem C4_nothing_to_commit (env : GitEnv) (h : Bool)
    (hg : env.gitPresent = true)
    (hinit : h = true ∨ (env.run .init).returncode = 0)
    (hrc : (env.run .commit).returncode ≠ 0) :
    (nothingToCommit (env.run .commit) = true →
      git_add_commit_push env false h
        = remotePushPhase env (initTrace h ++ [GitCmd.add, GitCmd.commit])) ∧
    (nothingToCommit (env.run .commit) = true →
      (env.run .remoteAdd).returncode = 0 → (env.run .push).returncode = 0 →
      git_add_commit_push env false h
        = .ok (true, initTrace h ++ [GitCmd.add, GitCmd.commit, GitCmd.remoteRemove,
            GitCmd.remoteAdd, GitCmd.branchM, GitCmd.push])) ∧
    (nothingToCommit (env.run .commit) = false →
      git_add_commit_push env false h
        = .ok (false, initTrace h ++ [GitCmd.add, GitCmd.commit])) := by
  have hinit0 : h = false → (env.run .init).returncode = 0 := by
    intro hf
    rcases hinit with h1 | h1
    · rw [hf] at h1; exact absurd h1 (by decide)
    · exact h1
  refine ⟨fun hn => ?_, fun hn hra hp => ?_, fun hn => ?_⟩
  · cases h
    · simp [git_add_commit_push, stepsPhase, initTrace, runCall, hg, hinit0 rfl, hn]
    · simp [git_add_commit_push, stepsPhase, initTrace, runCall, hg, hn]
  · cases h
    · simp [git_add_commit_push, stepsPhase, remotePushPhase, initTrace, runCall,
        hg, hinit0 rfl, hn, hra, hp]
    · simp [git_add_commit_push, stepsPhase, remotePushPhase, initTrace, runCall,
        hg, hn, hra, hp]
  · cases h
    · simp [git_add_commit_push, stepsPhase, initTrace, runCall, hg, hinit0 rfl, hn, hrc]
    · simp [git_add_commit_push, stepsPhase, initTrace, runCall, hg, hn, hrc]

def envC4 : GitEnv :=
  ⟨true, fun c => match c with
    | .commit => ⟨1, "nothing to commit, working tree clean", ""⟩
    | _ => ⟨0, "", ""⟩⟩

theorem C4_nothing_to_commit_w :
    git_add_commit_push envC4 false true
      = .ok (true, [GitCmd.add, GitCmd.commit, GitCmd.remoteRemove,
          GitCmd.remoteAdd, GitCmd.branchM, GitCmd.push]) :=
  (C4_nothing_to_commit envC4 true rfl (Or.inl rfl) (by decide)).2.1
    (by decide) (by decide) (by decide)

/-- C7: remote configuration removes any existing `origin` remote,
ignoring that removal's result entirely, then adds `origin`; a nonzero
`remote add` makes the operation return `false` (the trace showing the
removal ran right before the add, with no hypothesis on the removal's
exit status); replacing the removal's result never changes the outcome;
and when the git binary is absent the operation returns `false` rather
than crashing (the absence is caught at the earlier init/staging
steps). -/
theorem C7_remote_config (env : GitEnv) (h : Bool)
    (hg : env.gitPresent = true)
    (hinit : h = true ∨ (env.run .init).returncode = 0)
    (hc : (env.run .commit).returncode = 0)
    (hra : (env.run .remoteAdd).returncode ≠ 0) :
    git_add_commit_push env false h
      = .ok (false, initTrace h ++ [GitCmd.add, GitCmd.commit,
          GitCmd.remoteRemove, GitCmd.remoteAdd]) ∧
    (∀ rr : CmdResult, ∀ env3 : GitEnv, ∀ d3 h3 : Bool,
        git_add_commit_push (updRun env3 .remoteRemove rr) d3 h3
          = git_add_commit_push env3 d3 h3) ∧
    (∀ env2 : GitEnv, env2.gitPresent = false → ∀ h2 : Bool,
        git_add_commit_push env2 false h2 = .ok (false, [])) := by
  have hinit0 : h = false → (env.run .init).returncode = 0 := by
    intro hf
    rcases hinit with h1 | h1
    · rw [hf] at h1; exact absurd h1 (by decide)
    · exact h1
  refine ⟨?_, fun rr env3 d3 h3 => updRun_remoteRemove_irrelevant env3 rr d3 h3,
    fun env2 hg2 h2 => absent_returns_false env2 hg2 h2⟩
  cases h
  · simp [git_add_commit_push, stepsPhase, remotePushPhase, initTrace, runCall,
      hg, hinit0 rfl, hc, hra]
  · simp [git_add_commit_push, stepsPhase, remotePushPhase, initTrace, runCall,
      hg, hc, hra]

def envC7 : GitEnv :=
  ⟨true, fun c => match c with
    | .remoteRemove => ⟨2, "", "error: No such remote: origin"⟩
    | .remoteAdd => ⟨128, "", "fatal: not a valid remote name"⟩
    | _ => ⟨0, "", ""⟩⟩

theorem C7_remote_config_w :
    git_add_commit_push envC7 false true
      = .ok (false, [GitCmd.add, GitCmd.commit,
          GitCmd.remoteRemove, GitCmd.remoteAdd]) :=
  (C7_remote_config envC7 true rfl (Or.inl rfl) rfl (by decide)).1

/-- C8: a failure of the staging step is silently non-fatal — the result
of `git add .` (any exit status and output) never changes the behaviour
of `git_add_commit_push`, which proceeds identically to the commit and
later steps; and the only fatal loop step is a commit failure without
"nothing to commit", which returns `false` right after the commit. -/
theorem C8_staging_failure_nonfatal (env : GitEnv)
    (hg : env.gitPresent = true)
    (hrc : (env.run .commit).returncode ≠ 0)
    (hn : nothingToCommit (env.run .commit) = false) :
    (∀ env2 : GitEnv, ∀ r : CmdResult, ∀ d h : Bool,
        git_add_commit_push (updRun env2 .add r) d h = git_add_commit_push env2 d h) ∧
    (∀ h : Bool, (h = true ∨ (env.run .init).returncode = 0) →
        git_add_commit_push env false h
          = .ok (false, initTrace h ++ [GitCmd.add, GitCmd.commit])) := by
  refine ⟨fun env2 r d h => updRun_add_irrelevant env2 r d h, fun h hinit => ?_⟩
  have hinit0 : h = false → (env.run .init).returncode = 0 := by
    intro hf
    rcases hinit with h1 | h1
    · rw [hf] at h1; exact absurd h1 (by decide)
    · exact h1
  cases h
  · simp [git_add_commit_push, stepsPhase, initTrace, runCall, hg, hinit0 rfl, hn, hrc]
  · simp [git_add_commit_push, stepsPhase, initTrace, runCall, hg, hn, hrc]

def envC8 : GitEnv :=
  ⟨true, fun c => match c with
    | .add => ⟨128, "", "fatal: could not stage"⟩
    | .commit => ⟨1, "", "fatal: could not commit"⟩
    | _ => ⟨0, "", ""⟩⟩

theorem C8_staging_failure_nonfatal_w :
    git_add_commit_push envC8 false true
      = .ok (false, [GitCmd.add, GitCmd.commit]) :=
  (C8_staging_failure_nonfatal envC8 rfl (by decide) (by decide)).2 true (Or.inl rfl)

/-- C6: exit-code contract of `main`.  When the root is not a directory
the process exits 1 with the filesystem untouched; with a valid root and
no (truthy) remote URL it exits 0; with a valid root and a remote URL it
exits 0 exactly when `git_add_commit_push` returns `true`. -/
theorem C6_exit_codes (rootIsDir : Bool) (fs : FS) (a : Args) (u : Bool)
    (cd : List String → Bool) (env : GitEnv) :
    (rootIsDir = false → mainRun rootIsDir fs a u cd env = (1, fs)) ∧
    (rootIsDir = true → repoGiven a.repo = false →
      (mainRun rootIsDir fs a u cd env).1 = 0) ∧
    (rootIsDir = true → repoGiven a.repo = true →
      ((mainRun rootIsDir fs a u cd env).1 = 0 ↔
        ∃ t, git_add_commit_push env a.dryRun
            (hasGitDir (cleanupFS fs u cd a.dryRun)) = .ok (true, t))) := by
  refine ⟨fun hr => ?_, fun hr hrep => ?_, fun hr hrep => ?_⟩
  · simp [mainRun, hr]
  · simp [mainRun, hr, hrep]
  · rcases hgp : git_add_commit_push env a.dryRun (hasGitDir (cleanupFS fs u cd a.dryRun))
      with e | ⟨b, t⟩
    · simp [mainRun, hr, hrep, hgp]
    · cases b
      · simp [mainRun, hr, hrep, hgp]
      · simp [mainRun, hr, hrep, hgp]

def argsNoRepo : Args := ⟨none, false⟩

theorem C6_exit_codes_w :
    mainRun false [] argsNoRepo true (fun _ => true) envOk = (1, []) ∧
    (mainRun true [] argsNoRepo true (fun _ => true) envOk).1 = 0 :=
  ⟨(C6_exit_codes false [] argsNoRepo true (fun _ => true) envOk).1 rfl,
   (C6_exit_codes true [] argsNoRepo true (fun _ => true) envOk).2.1 rfl rfl⟩

end CleanPush
